import Mathlib

/-!
Shallow embedding of the translation-assistant module (translation-assistant.js)
of the Khan/intelligent-tm repository, together with theorems settling the
frozen claims about it.

Strings are modelled as lists of characters.  The JavaScript regular
expressions used by the source are modelled by hand-written scanners that
reproduce the leftmost, greedy-with-backtracking match semantics of the
concrete patterns appearing in the source:

  MATH_REGEX     = dollar, one or more of (backslash-dollar pair or any
                   non-dollar character), dollar
  GRAPHIE_REGEX  = the four characters bang bracket bracket paren, one or
                   more non-closing-paren characters, closing paren
  WIDGET_REGEX   = two open square brackets, a snowman character, one or
                   more non-closing-bracket characters, two closing brackets
  BOLD_REGEX     = two asterisks, any run of non-line-terminator characters
                   (greedy), two asterisks
-/

set_option autoImplicit false

namespace TA

/-- Strings of the embedded program: lists of characters. -/
abbrev Str := List Char

/-- Conversion from Lean string literals to embedded strings. -/
def S (s : String) : Str := s.data

/-! ## Matchers: each returns the length of the regex match anchored at the
head of the string, or none. -/

/-- Scanner for the part of a MATH_REGEX match after the opening dollar.
Returns the number of characters up to and including the closing dollar.
A backslash-dollar pair is consumed preferentially as content; if no closing
dollar is ever found, the rightmost such pair backtracks so that its dollar
becomes the closing delimiter, exactly as the backtracking of the JavaScript
pattern does. -/
def mathTail : Str → Option Nat
  | [] => none
  | '$' :: _ => some 1
  | '\\' :: '$' :: rest =>
    match mathTail rest with
    | some n => some (n + 2)
    | none => some 2
  | _ :: rest => (mathTail rest).map (· + 1)

/-- Match of MATH_REGEX anchored at the head: an opening dollar, at least one
content token, a closing dollar. -/
def tryMath : Str → Option Nat
  | '$' :: rest =>
    match mathTail rest with
    | some n => if 2 ≤ n then some (n + 1) else none
    | none => none
  | _ => none

/-- Number of characters up to and including the first closing paren. -/
def parenScan : Str → Option Nat
  | [] => none
  | ')' :: _ => some 1
  | _ :: rest => (parenScan rest).map (· + 1)

/-- Match of GRAPHIE_REGEX anchored at the head. -/
def tryGraphie (s : Str) : Option Nat :=
  if (S ("![](")).isPrefixOf s then
    match parenScan (s.drop 4) with
    | some m => if 2 ≤ m then some (m + 4) else none
    | none => none
  else none

/-- Number of characters up to and including a doubled closing bracket,
failing if the first closing bracket found is not doubled (the pattern has
no way to backtrack past it). -/
def wScan : Str → Option Nat
  | [] => none
  | ']' :: ']' :: _ => some 2
  | ']' :: _ => none
  | _ :: rest => (wScan rest).map (· + 1)

/-- Match of WIDGET_REGEX anchored at the head. -/
def tryWidget (s : Str) : Option Nat :=
  if (S ("[[☃")).isPrefixOf s then
    match wScan (s.drop 3) with
    | some m => if 3 ≤ m then some (m + 3) else none
    | none => none
  else none

/-- Line terminators, which the dot of a JavaScript regex never matches. -/
def isLineTerm (c : Char) : Bool :=
  c = '\n' ∨ c = '\r' ∨ c = '\u2028' ∨ c = '\u2029'

/-- Offset just past the last doubled asterisk reachable from the current
position without crossing a line terminator; this is where the greedy dot of
BOLD_REGEX ends up after backtracking. -/
def boldScan : Str → Option Nat
  | [] => none
  | c :: cs =>
    if isLineTerm c then none
    else
      match boldScan cs with
      | some m => some (m + 1)
      | none => if c = '*' ∧ cs.head? = some '*' then some 2 else none

/-- Match of BOLD_REGEX anchored at the head. -/
def tryBold : Str → Option Nat
  | '*' :: '*' :: rest => (boldScan rest).map (· + 2)
  | _ => none

/-- Match of a literal pattern anchored at the head. -/
def tryLit (pat : Str) (s : Str) : Option Nat :=
  if pat.isPrefixOf s then some pat.length else none

/-- Length of the run of horizontal whitespace (space or tab) at the head. -/
def wsRun : Str → Nat
  | [] => 0
  | c :: cs => if c = ' ' ∨ c = '\t' then wsRun cs + 1 else 0

/-- Match of the pattern joining a math placeholder to a widget placeholder
across horizontal whitespace, used by the normalizer. -/
def tryMW (s : Str) : Option Nat :=
  if (S ("__MATH__")).isPrefixOf s then
    let rest := s.drop 8
    let k := wsRun rest
    if (S ("__WIDGET__")).isPrefixOf (rest.drop k) then some (18 + k) else none
  else none

/-! ## Global regex scans: leftmost, non-overlapping, as performed by the
string match and replace methods with a global regex.  The numeric first
argument is the number of characters of an already-reported match still to
be skipped; external callers always pass zero. -/

/-- All matches of a matcher over a string, in order. -/
def matchScan (mu : Str → Option Nat) : Nat → Str → List Str
  | 0, [] => []
  | 0, c :: cs =>
    match mu (c :: cs) with
    | some n => (c :: cs).take n :: matchScan mu (n - 1) cs
    | none => matchScan mu 0 cs
  | _ + 1, [] => []
  | k + 1, _ :: cs => matchScan mu k cs

/-- The string match method with a global regex (empty list when no match). -/
def jsMatch (mu : Str → Option Nat) (s : Str) : List Str := matchScan mu 0 s

/-- Global replace, where the replacement is a function of the matched text. -/
def replaceScan (mu : Str → Option Nat) (f : Str → Str) : Nat → Str → Str
  | 0, [] => []
  | 0, c :: cs =>
    match mu (c :: cs) with
    | some n => f ((c :: cs).take n) ++ replaceScan mu f (n - 1) cs
    | none => c :: replaceScan mu f 0 cs
  | _ + 1, [] => []
  | k + 1, _ :: cs => replaceScan mu f k cs

/-- The string replace method with a global regex. -/
def jsReplace (mu : Str → Option Nat) (f : Str → Str) (s : Str) : Str :=
  replaceScan mu f 0 s

/-- Global replace whose matcher threads a state (used for the replacement
callbacks with counters in populateTemplate); returns the final state. -/
def replaceScanSt {σ : Type} (mu : Str → σ → Option (Nat × Str × σ)) :
    Nat → σ → Str → Str × σ
  | 0, st, [] => ([], st)
  | 0, st, c :: cs =>
    match mu (c :: cs) st with
    | some (n, repl, st2) =>
      let r := replaceScanSt mu (n - 1) st2 cs
      (repl ++ r.1, r.2)
    | none =>
      let r := replaceScanSt mu 0 st cs
      (c :: r.1, r.2)
  | _ + 1, st, [] => ([], st)
  | k + 1, st, _ :: cs => replaceScanSt mu k st cs

/-- Replace every occurrence of a literal pattern by a fixed string. -/
def replaceLit (pat repl : Str) (s : Str) : Str :=
  jsReplace (tryLit pat) (fun _ => repl) s

/-- Substring test, as the indexOf comparison with minus one in the source. -/
def hasSubstr (pat : Str) : Str → Bool
  | [] => pat.isEmpty
  | c :: cs => pat.isPrefixOf (c :: cs) || hasSubstr pat cs

/-! ## Paragraph splitting and joining (the LINE_BREAK constant). -/

/-- Prepend a character to the first piece of a split result. -/
def consHead (c : Char) : List Str → List Str
  | [] => [[c]]
  | p :: ps => (c :: p) :: ps

/-- Split on the two-line-feed paragraph delimiter, leftmost first, exactly
as the JavaScript string split method. -/
def splitLB : Str → List Str
  | [] => [[]]
  | [c] => [[c]]
  | c :: d :: rest =>
    if c = '\n' ∧ d = '\n' then [] :: splitLB rest
    else consHead c (splitLB (d :: rest))

/-- Join pieces with the two-line-feed paragraph delimiter. -/
def joinSep : List Str → Str
  | [] => []
  | [l] => l
  | l :: ls => l ++ '\n' :: '\n' :: joinSep ls

/-- Whether the two-line-feed delimiter occurs anywhere in the string. -/
def hasSep : Str → Bool
  | [] => false
  | [_] => false
  | c :: d :: rest => (c = '\n' ∧ d = '\n') || hasSep (d :: rest)

/-- Whether the string ends with a line feed. -/
def endsLF : Str → Bool
  | [] => false
  | [c] => c = '\n'
  | _ :: d :: rest => endsLF (d :: rest)

/-- The whitespace class of the JavaScript trim method. -/
def isJsWs (c : Char) : Bool :=
  c = ' ' ∨ c = '\t' ∨ c = '\n' ∨ c = '\r' ∨ c = '\x0b' ∨ c = '\x0c' ∨
  c = '\u00A0' ∨ c = '\u1680' ∨ ('\u2000' ≤ c ∧ c ≤ '\u200A') ∨
  c = '\u2028' ∨ c = '\u2029' ∨ c = '\u202F' ∨ c = '\u205F' ∨
  c = '\u3000' ∨ c = '\uFEFF'

/-- Remove trailing whitespace. -/
def dropTrail : Str → Str
  | [] => []
  | c :: cs =>
    match dropTrail cs with
    | [] => if isJsWs c then [] else [c]
    | r => c :: r

/-- The JavaScript trim method: strip whitespace from both ends. -/
def trim (s : Str) : Str := dropTrail (s.dropWhile isJsWs)

/-! ## The translation-assistant functions themselves. -/

/-- normalizeString: mask math, graphie and widget substrings with
placeholders, normalize horizontal whitespace between a math and a widget
placeholder, strip bold markup (keeping its content), and trim every
paragraph. -/
def normalizeString (s : Str) : Str :=
  let a := jsReplace tryMath (fun _ => S ("__MATH__")) s
  let b := jsReplace tryGraphie (fun _ => S ("__GRAPHIE__")) a
  let c := jsReplace tryWidget (fun _ => S ("__WIDGET__")) b
  let d := jsReplace tryMW (fun _ => S ("__MATH__ __WIDGET__")) c
  let e := jsReplace tryBold (fun m => (m.drop 2).take (m.length - 4)) d
  joinSep ((splitLB e).map trim)

/-- The three special-substring kinds handled by getMapping. -/
inductive Kind where
  | math
  | graphie
  | widget
deriving DecidableEq

/-- The regex selected by each kind. -/
def kindMatcher : Kind → (Str → Option Nat)
  | .math => tryMath
  | .graphie => tryGraphie
  | .widget => tryWidget

/-- The kind-specific error message thrown by getMapping. -/
def errMsg : Kind → Str
  | .math => S ("math doesn") ++ '\'' :: S ("t match")
  | .graphie => S ("graphies don") ++ '\'' :: S ("t match")
  | .widget => S ("widgets don") ++ '\'' :: S ("t match")

/-- First index of an equal element, as the array indexOf method (none for
minus one). -/
def idxOf : List Str → Str → Option Nat
  | [], _ => none
  | y :: ys, x => if y = x then some 0 else (idxOf ys x).map (· + 1)

/-- The Portuguese rewrite applied by getMapping to each translated
occurrence before comparison. -/
def senToSin (s : Str) : Str :=
  replaceLit (S ("\\operatorname{sen}")) (S ("\\sin")) s

/-- The rewrite getMapping applies to a translated occurrence before the
equality comparison: for pt it maps the operatorname form of sen back to sin;
for every other language it is the identity. -/
def ptRw (lang o : Str) : Str := if lang = S ("pt") then senToSin o else o

/-- Loop body of getMapping over the translated occurrences: each translated
occurrence (rewritten when the language is pt) must occur verbatim among the
English occurrences; the first failure throws the kind-specific error. -/
def getMappingGo (inputs : List Str) (lang : Str) (kind : Kind) :
    List Str → Except Str (List Nat)
  | [] => .ok []
  | o :: os =>
    let o2 := ptRw lang o
    match idxOf inputs o2 with
    | none => .error (errMsg kind)
    | some i =>
      match getMappingGo inputs lang kind os with
      | .error e => .error e
      | .ok rest => .ok (i :: rest)

/-- getMapping: order mapping of one special-substring kind between the
English string and the translated string. -/
def getMapping (english translated lang : Str) (kind : Kind) :
    Except Str (List Nat) :=
  getMappingGo (jsMatch (kindMatcher kind) english) lang kind
    (jsMatch (kindMatcher kind) translated)

/-- The template object built by createTemplate. -/
structure Template where
  lines : List Str
  mathMapping : List Nat
  graphieMapping : List Nat
  widgetMapping : List Nat
deriving DecidableEq

/-- One translated line with math, then graphie, then widget occurrences
replaced by placeholders, each pass operating on the previous result. -/
def maskLine (l : Str) : Str :=
  jsReplace tryWidget (fun _ => S ("__WIDGET__"))
    (jsReplace tryGraphie (fun _ => S ("__GRAPHIE__"))
      (jsReplace tryMath (fun _ => S ("__MATH__")) l))

/-- createTemplate: placeholder lines of the translated string plus the three
mappings; the first getMapping failure (math, then graphie, then widget) is
returned as the error value. -/
def createTemplate (english translated lang : Str) : Except Str Template :=
  match getMapping english translated lang Kind.math with
  | .error e => .error e
  | .ok mm =>
    match getMapping english translated lang Kind.graphie with
    | .error e => .error e
    | .ok gm =>
      match getMapping english translated lang Kind.widget with
      | .error e => .error e
      | .ok wm => .ok ⟨(splitLB translated).map maskLine, mm, gm, wm⟩

/-- translateMath: the per-language math transform. -/
def translateMath (math lang : Str) : Str :=
  if lang = S ("pt") then replaceLit (S ("\\sin")) (S ("\\operatorname{sen}")) math
  else math

/-- The callback the source passes to Array.prototype.map over the extracted
math occurrences: map invokes translateMath with (element, index), so the
lang parameter receives the numeric element index, and the strict equality
of a number with the string pt is false; every element is returned
unchanged. -/
def translateMathIndexed (math : Str) (_idx : Nat) : Str := math

/-- The maths.map(translateMath) step of populateTemplate. -/
def mapTranslateMathJsGo (i : Nat) : List Str → List Str
  | [] => []
  | m :: ms => translateMathIndexed m i :: mapTranslateMathJsGo (i + 1) ms

/-- The maths.map(translateMath) step of populateTemplate, from index zero. -/
def mapTranslateMathJs (l : List Str) : List Str := mapTranslateMathJsGo 0 l

/-- The string that JavaScript interpolates for an undefined value. -/
def undefinedStr : Str := S ("undefined")

/-- arr at (mapping at i): out-of-range indexing yields undefined, which the
replace method coerces to the eight-character undefined string. -/
def jsLookup (arr : List Str) (mapping : List Nat) (i : Nat) : Str :=
  match mapping.get? i with
  | none => undefinedStr
  | some j => (arr.get? j).getD undefinedStr

/-- Matcher for a literal placeholder whose replacement consumes a counter. -/
def phMatcher (pat : Str) (txt : Nat → Str) : Str → Nat → Option (Nat × Str × Nat) :=
  fun s st => if pat.isPrefixOf s then some (pat.length, txt st, st + 1) else none

/-- One line of populateTemplate: replace the math, then graphie, then widget
placeholders, each kind consuming its own document-wide counter. -/
def popLine (maths graphies widgets : List Str) (t : Template) (line : Str)
    (cm cg cw : Nat) : Str × Nat × Nat × Nat :=
  let r1 := replaceScanSt (phMatcher (S ("__MATH__")) (jsLookup maths t.mathMapping)) 0 cm line
  let r2 := replaceScanSt (phMatcher (S ("__GRAPHIE__")) (jsLookup graphies t.graphieMapping)) 0 cg r1.1
  let r3 := replaceScanSt (phMatcher (S ("__WIDGET__")) (jsLookup widgets t.widgetMapping)) 0 cw r2.1
  (r3.1, r1.2, r2.2, r3.2)

/-- Walk of populateTemplate over the English paragraphs: the paragraph at
each index selects the template line at the same index; a missing template
line is an access on undefined and throws (none). -/
def populateLines (maths graphies widgets : List Str) (t : Template) :
    List Str → List Str → Nat → Nat → Nat → Option (List Str)
  | [], _, _, _, _ => some []
  | _ :: _, [], _, _, _ => none
  | _ :: es, tl :: tls, cm, cg, cw =>
    let r := popLine maths graphies widgets t tl cm cg cw
    match populateLines maths graphies widgets t es tls r.2.1 r.2.2.1 r.2.2.2 with
    | none => none
    | some rest => some (r.1 :: rest)

/-- populateTemplate: substitute the English special substrings into the
template lines according to the mappings.  The lang parameter is accepted but
unused: the only place the source would use it is the map over the math
occurrences, where the index-as-lang callback makes the transform the
identity. -/
def populateTemplate (t : Template) (english : Str) (_lang : Str) : Option Str :=
  match populateLines (mapTranslateMathJs (jsMatch tryMath english))
      (jsMatch tryGraphie english) (jsMatch tryWidget english)
      t (splitLB english) t.lines 0 0 0 with
  | none => none
  | some ls => some (joinSep ls)

/-! ## Grouping. -/

/-- Append an item to the bucket of a key, creating the bucket at the end on
first use (JavaScript object insertion order). -/
def addItem {α : Type} : List (Str × List α) → Str → α → List (Str × List α)
  | [], k, x => [(k, [x])]
  | (k2, l) :: rest, k, x =>
    if k2 = k then (k2, l ++ [x]) :: rest else (k2, l) :: addItem rest k x

/-- group: partition items into buckets keyed by the normalization of their
English string. -/
def group {α : Type} (items : List α) (f : α → Str) : List (Str × List α) :=
  items.foldl (fun acc x => addItem acc (normalizeString (f x)) x) []

/-- Bucket of a key (empty when the key is absent). -/
def lookupKey {α : Type} : List (Str × List α) → Str → List α
  | [], _ => []
  | (k, l) :: rest, key => if k = key then l else lookupKey rest key

/-! ## Auto translation and the orchestrator. -/

/-- autoTranslatePlaceholders: items whose normalization is exactly one
placeholder get a direct translation; math containing a text command is
refused, and in that branch the source returns the English string itself in
the item position of the result pair (left injection is the item, right
injection is the English string). -/
def autoTranslatePlaceholders {α : Type} (items : List α) (lang : Str)
    (f : α → Str) : List ((α ⊕ Str) × Option Str) :=
  items.map (fun item =>
    let e := f item
    let n := normalizeString e
    if n = S ("__MATH__") then
      if hasSubstr (S ("\\text")) e then (Sum.inr e, none)
      else (Sum.inl item, some (translateMath e lang))
    else if n = S ("__GRAPHIE__") ∨ n = S ("__WIDGET__") then
      (Sum.inl item, some e)
    else (Sum.inl item, none))

/-- Truthiness of a nullable string. -/
def truthy : Option Str → Bool
  | none => false
  | some l => !l.isEmpty

/-- findTranslationPair: the first pair whose two components are truthy
(none models the returned Error value). -/
def findTranslationPair : List (Option Str × Option Str) → Option (Str × Str)
  | [] => none
  | (a, b) :: rest =>
    match a, b with
    | some (x :: xs), some (y :: ys) => some (x :: xs, y :: ys)
    | _, _ => findTranslationPair rest

/-- Outcome of suggest: a returned Error value, an uncaught exception thrown
by populateTemplate, or the list of suggestion pairs. -/
inductive SuggestResult (α : Type) where
  | err : Str → SuggestResult α
  | exn : SuggestResult α
  | pairs : List ((α ⊕ Str) × Option Str) → SuggestResult α
deriving DecidableEq

/-- Map of populateTemplate over the items; an exception from any item aborts
the whole map. -/
def populateItems {α : Type} (tmpl : Template) (lang : Str) (f : α → Str) :
    List α → Option (List ((α ⊕ Str) × Option Str))
  | [] => some []
  | it :: its =>
    match populateTemplate tmpl (f it) lang with
    | none => none
    | some s =>
      match populateItems tmpl lang f its with
      | none => none
      | some rest => some ((Sum.inl it, some s) :: rest)

/-- suggest: fall back to the auto translator when no usable reference pair
exists or the items normalize into more than one group; otherwise build a
template from the reference pair, returning its error as the overall result,
and populate it against every item. -/
def suggest {α : Type} (translationPairs : List (Option Str × Option Str))
    (items : List α) (lang : Str) (f : α → Str) : SuggestResult α :=
  match findTranslationPair translationPairs with
  | none => .pairs (autoTranslatePlaceholders items lang f)
  | some (e, t) =>
    if 1 < (group items f).length then
      .pairs (autoTranslatePlaceholders items lang f)
    else
      match createTemplate e t lang with
      | .error msg => .err msg
      | .ok tmpl =>
        match populateItems tmpl lang f items with
        | none => .exn
        | some l => .pairs l

/-! ## Derived notions used to state the claims. -/

/-- A translated occurrence of the given kind whose rewritten text occurs
nowhere among the English occurrences of that kind. -/
def mappingBad (english translated lang : Str) (k : Kind) : Prop :=
  ∃ o ∈ jsMatch (kindMatcher k) translated,
    idxOf (jsMatch (kindMatcher k) english) (ptRw lang o) = none

/-- Concatenation of the matches of a matcher over a list of strings. -/
def flatMatches (mu : Str → Option Nat) : List Str → List Str
  | [] => []
  | l :: ls => jsMatch mu l ++ flatMatches mu ls

/-- An opaque translatable item with an identifier, distinct from its
English string, used to exercise the accessor-based interface. -/
structure TItem where
  id : Nat
  englishStr : Str
deriving DecidableEq

/-! ## Basic lemmas about the scanners. -/

theorem isPrefixOf_append_self (pat r : Str) : pat.isPrefixOf (pat ++ r) = true := by
  induction pat with
  | nil => simp [List.isPrefixOf]
  | cons a as ih => simp [List.isPrefixOf, ih]

theorem isPrefixOf_cons_false {a : Char} {as : Str} {c : Char} {cs : Str}
    (h : c ≠ a) : (a :: as).isPrefixOf (c :: cs) = false := by
  simp [List.isPrefixOf]
  intro hc
  exact absurd hc.symm h

theorem isPrefixOf_eq_append {pat s : Str} (h : pat.isPrefixOf s = true) :
    ∃ r, s = pat ++ r := by
  induction pat generalizing s with
  | nil => exact ⟨s, rfl⟩
  | cons a as ih =>
    cases s with
    | nil => simp [List.isPrefixOf] at h
    | cons b bs =>
      simp only [List.isPrefixOf, Bool.and_eq_true, beq_iff_eq] at h
      obtain ⟨r, hr⟩ := ih h.2
      exact ⟨r, by simp [h.1, hr]⟩

theorem replaceScan_skip (mu : Str → Option Nat) (f : Str → Str) :
    ∀ (k : Nat) (l : Str), replaceScan mu f k l = replaceScan mu f 0 (l.drop k) := by
  intro k
  induction k with
  | zero => intro l; simp
  | succ k ih =>
    intro l
    cases l with
    | nil => simp [replaceScan]
    | cons c cs => simpa [replaceScan] using ih cs

theorem matchScan_skip (mu : Str → Option Nat) :
    ∀ (k : Nat) (l : Str), matchScan mu k l = matchScan mu 0 (l.drop k) := by
  intro k
  induction k with
  | zero => intro l; simp
  | succ k ih =>
    intro l
    cases l with
    | nil => simp [matchScan]
    | cons c cs => simpa [matchScan] using ih cs

theorem replaceScanSt_skip {σ : Type} (mu : Str → σ → Option (Nat × Str × σ)) :
    ∀ (k : Nat) (st : σ) (l : Str),
      replaceScanSt mu k st l = replaceScanSt mu 0 st (l.drop k) := by
  intro k
  induction k with
  | zero => intro st l; simp
  | succ k ih =>
    intro st l
    cases l with
    | nil => simp [replaceScanSt]
    | cons c cs => simpa [replaceScanSt] using ih st cs

theorem replaceScanSt_prefix_skip {σ : Type} (mu : Str → σ → Option (Nat × Str × σ))
    (l rest : Str) (st : σ) :
    replaceScanSt mu l.length st (l ++ rest) = replaceScanSt mu 0 st rest := by
  rw [replaceScanSt_skip]
  simp

/-- Replace leaves a string unchanged whenever every character of the string
satisfies a property that makes the matcher fail. -/
theorem replaceScan_id (mu : Str → Option Nat) (f : Str → Str) (P : Char → Prop)
    (hmu : ∀ c cs, P c → mu (c :: cs) = none) :
    ∀ s : Str, (∀ c ∈ s, P c) → replaceScan mu f 0 s = s := by
  intro s
  induction s with
  | nil => simp [replaceScan]
  | cons c cs ih =>
    intro h
    rw [replaceScan, hmu c cs (h c (by simp))]
    simp [ih (fun x hx => h x (by simp [hx]))]

theorem matchScan_nil_of (mu : Str → Option Nat) (P : Char → Prop)
    (hmu : ∀ c cs, P c → mu (c :: cs) = none) :
    ∀ s : Str, (∀ c ∈ s, P c) → matchScan mu 0 s = [] := by
  intro s
  induction s with
  | nil => simp [matchScan]
  | cons c cs ih =>
    intro h
    rw [matchScan, hmu c cs (h c (by simp))]
    exact ih (fun x hx => h x (by simp [hx]))

theorem replaceScanSt_id {σ : Type} (mu : Str → σ → Option (Nat × Str × σ))
    (P : Char → Prop) (hmu : ∀ c cs st, P c → mu (c :: cs) st = none) :
    ∀ (s : Str) (st : σ), (∀ c ∈ s, P c) → replaceScanSt mu 0 st s = (s, st) := by
  intro s
  induction s with
  | nil => intro st _; simp [replaceScanSt]
  | cons c cs ih =>
    intro st h
    rw [replaceScanSt, hmu c cs st (h c (by simp))]
    simp [ih st (fun x hx => h x (by simp [hx]))]

theorem phMatcher_none {pat : Str} {txt : Nat → Str} {c : Char} {cs : Str} {st : Nat}
    (hpat : pat.head? = some '_') (hc : c ≠ '_') :
    phMatcher pat txt (c :: cs) st = none := by
  cases pat with
  | nil => simp at hpat
  | cons a as =>
    simp only [List.head?] at hpat
    obtain rfl : a = '_' := by injection hpat
    simp [phMatcher, isPrefixOf_cons_false hc]

/-! ## Lemmas about paragraph splitting and joining. -/

theorem consHead_ne_nil (c : Char) (ps : List Str) : consHead c ps ≠ [] := by
  cases ps <;> simp [consHead]

theorem splitLB_ne_nil : ∀ s : Str, splitLB s ≠ [] := by
  intro s
  induction s using splitLB.induct with
  | case1 => simp [splitLB]
  | case2 c => simp [splitLB]
  | case3 c d rest hcd ih => simp [splitLB, hcd]
  | case4 c d rest hcd ih => simp [splitLB, hcd, consHead_ne_nil]

theorem joinSep_cons (l : Str) (ls : List Str) (h : ls ≠ []) :
    joinSep (l :: ls) = l ++ '\n' :: '\n' :: joinSep ls := by
  cases ls with
  | nil => exact absurd rfl h
  | cons q qs => simp [joinSep]

theorem joinSep_consHead (c : Char) (ps : List Str) (h : ps ≠ []) :
    joinSep (consHead c ps) = c :: joinSep ps := by
  cases ps with
  | nil => exact absurd rfl h
  | cons p qs =>
    cases qs with
    | nil => simp [consHead, joinSep]
    | cons q qs' => simp [consHead, joinSep]

theorem joinSep_splitLB : ∀ s : Str, joinSep (splitLB s) = s := by
  intro s
  induction s using splitLB.induct with
  | case1 => simp [splitLB, joinSep]
  | case2 c => simp [splitLB, joinSep]
  | case3 c d rest hcd ih =>
    obtain ⟨rfl, rfl⟩ := hcd
    rw [splitLB, if_pos (And.intro rfl rfl),
      joinSep_cons [] (splitLB rest) (splitLB_ne_nil rest), ih]
    rfl
  | case4 c d rest hcd ih =>
    rw [splitLB, if_neg hcd, joinSep_consHead c _ (splitLB_ne_nil (d :: rest)), ih]

theorem mem_joinSep {c : Char} : ∀ {L : List Str} {p : Str}, p ∈ L → c ∈ p → c ∈ joinSep L := by
  intro L
  induction L with
  | nil => intro p h; simp at h
  | cons q qs ih =>
    intro p hp hc
    cases qs with
    | nil =>
      simp only [List.mem_singleton] at hp
      subst hp
      simpa [joinSep] using hc
    | cons r rs =>
      rw [joinSep_cons q (r :: rs) (by simp)]
      rcases List.mem_cons.mp hp with rfl | hmem
      · exact List.mem_append_left _ hc
      · exact List.mem_append_right _ (by simp [ih hmem hc])

theorem hasSep_tail_false {c : Char} {l : Str} (h : hasSep (c :: l) = false) :
    hasSep l = false := by
  cases l with
  | nil => rfl
  | cons d rest =>
    rw [hasSep] at h
    exact (Bool.or_eq_false_iff.mp h).2

theorem hasSep_append_left : ∀ {a b : Str}, hasSep (a ++ b) = false → hasSep a = false := by
  intro a
  induction a with
  | nil => intro b _; rfl
  | cons c a' ih =>
    intro b h
    cases a' with
    | nil => rfl
    | cons d rest =>
      simp only [List.cons_append] at h
      rw [hasSep] at h
      rcases Bool.or_eq_false_iff.mp h with ⟨h1, h2⟩
      rw [hasSep, h1]
      simpa using @ih b (by simpa using h2)

theorem hasSep_append_right : ∀ {a b : Str}, hasSep (a ++ b) = false → hasSep b = false := by
  intro a
  induction a with
  | nil => intro b h; simpa using h
  | cons c a' ih =>
    intro b h
    apply ih
    exact @hasSep_tail_false c (a' ++ b) (by simpa using h)

/-- The first piece produced by splitting a nonempty string is either empty
(the string starts with the separator) or starts with the first character. -/
theorem splitLB_first_piece (d : Char) (rest : Str) :
    (∃ qs, splitLB (d :: rest) = [] :: qs) ∨
    (∃ q qs, splitLB (d :: rest) = (d :: q) :: qs) := by
  cases rest with
  | nil => exact Or.inr ⟨[], [], rfl⟩
  | cons e rest' =>
    by_cases hde : d = '\n' ∧ e = '\n'
    · rw [splitLB, if_pos hde]
      exact Or.inl ⟨splitLB rest', rfl⟩
    · rw [splitLB, if_neg hde]
      cases hq : splitLB (e :: rest') with
      | nil => exact absurd hq (splitLB_ne_nil (e :: rest'))
      | cons x xs => exact Or.inr ⟨x, xs, by simp [consHead]⟩

theorem hasSep_splitLB : ∀ (s : Str) (p : Str), p ∈ splitLB s → hasSep p = false := by
  intro s
  induction s using splitLB.induct with
  | case1 => intro p hp; simp [splitLB] at hp; simp [hp, hasSep]
  | case2 c => intro p hp; simp [splitLB] at hp; simp [hp, hasSep]
  | case3 c d rest hcd ih =>
    obtain ⟨rfl, rfl⟩ := hcd
    intro p hp
    rw [splitLB, if_pos (And.intro rfl rfl)] at hp
    rcases List.mem_cons.mp hp with rfl | hmem
    · rfl
    · exact ih p hmem
  | case4 c d rest hcd ih =>
    intro p hp
    rw [splitLB, if_neg hcd] at hp
    rcases splitLB_first_piece d rest with ⟨qs, hq⟩ | ⟨q, qs, hq⟩
    · rw [hq] at hp
      simp only [consHead] at hp
      rcases List.mem_cons.mp hp with rfl | hmem
      · rfl
      · exact ih p (by simp [hq, hmem])
    · rw [hq] at hp
      simp only [consHead] at hp
      rcases List.mem_cons.mp hp with rfl | hmem
      · have hq' : hasSep (d :: q) = false := ih (d :: q) (by simp [hq])
        rw [hasSep]
        simp only [Bool.or_eq_false_iff]
        constructor
        · simpa using hcd
        · exact hq'
      · exact ih p (by simp [hq, hmem])

theorem endsLF_cons {c : Char} {l : Str} (h : l ≠ []) : endsLF (c :: l) = endsLF l := by
  cases l with
  | nil => exact absurd rfl h
  | cons d rest => rfl

theorem splitLB_eq_single : ∀ {p : Str}, hasSep p = false → splitLB p = [p] := by
  intro p
  induction p using splitLB.induct with
  | case1 => intro _; rfl
  | case2 c => intro _; rfl
  | case3 c d rest hcd ih =>
    intro h
    obtain ⟨rfl, rfl⟩ := hcd
    rw [hasSep] at h
    simp at h
  | case4 c d rest hcd ih =>
    intro h
    rw [splitLB, if_neg hcd, ih (hasSep_tail_false h)]
    rfl

theorem splitLB_append_sep :
    ∀ {p : Str} (m : Str), hasSep p = false → endsLF p = false →
      splitLB (p ++ '\n' :: '\n' :: m) = p :: splitLB m := by
  intro p
  induction p with
  | nil => intro m _ _; simp [splitLB]
  | cons c p' ih =>
    intro m hsep hend
    cases p' with
    | nil =>
      have hc : c ≠ '\n' := by simpa [endsLF] using hend
      have : ([c] ++ '\n' :: '\n' :: m) = c :: '\n' :: ('\n' :: m) := by simp
      rw [this, splitLB, if_neg (by intro hx; exact hc hx.1)]
      rw [show ('\n' :: ('\n' :: m)) = ('\n' :: '\n' :: m) from rfl, splitLB,
        if_pos (And.intro rfl rfl)]
      rfl
    | cons d p'' =>
      have hcd : ¬(c = '\n' ∧ d = '\n') := by
        intro hx
        rw [hasSep] at hsep
        simp [hx.1, hx.2] at hsep
      have hstep : ((c :: d :: p'') ++ '\n' :: '\n' :: m) =
          c :: ((d :: p'') ++ '\n' :: '\n' :: m) := by simp
      rw [hstep]
      cases hsp : ((d :: p'') ++ '\n' :: '\n' :: m) with
      | nil => simp at hsp
      | cons e tail =>
        have he : d = e := by simpa using congrArg (fun l => l.headD ' ') hsp
        rw [← hsp, splitLB.eq_def]
        simp only [hsp]
        rw [if_neg (by rw [← he]; exact hcd), ← hsp]
        rw [ih m (hasSep_tail_false hsep) (by simpa [endsLF_cons (by simp : (d :: p'') ≠ [])] using hend)]
        rfl

theorem splitLB_joinSep_clean :
    ∀ {L : List Str}, L ≠ [] → (∀ p ∈ L, hasSep p = false) → (∀ p ∈ L, endsLF p = false) →
      splitLB (joinSep L) = L := by
  intro L
  induction L with
  | nil => intro h _ _; exact absurd rfl h
  | cons p ps ih =>
    intro _ hsep hend
    cases ps with
    | nil => simpa [joinSep] using splitLB_eq_single (hsep p (by simp))
    | cons q qs =>
      rw [joinSep_cons p (q :: qs) (by simp),
        splitLB_append_sep (joinSep (q :: qs)) (hsep p (by simp)) (hend p (by simp)),
        ih (by simp) (fun x hx => hsep x (by simp [hx])) (fun x hx => hend x (by simp [hx]))]

/-! ## Lemmas about trim. -/

theorem dropWhile_head_not (p : Char → Bool) :
    ∀ (l : Str) {c : Char}, (l.dropWhile p).head? = some c → p c = false := by
  intro l
  induction l with
  | nil => intro c h; simp [List.dropWhile] at h
  | cons a as ih =>
    intro c h
    by_cases ha : p a
    · rw [List.dropWhile_cons_of_pos ha] at h
      exact ih h
    · rw [List.dropWhile_cons_of_neg ha] at h
      simp only [List.head?] at h
      obtain rfl : a = c := by injection h
      simpa using ha

theorem dropWhile_eq_self_of_head (p : Char → Bool) (l : Str)
    (h : ∀ c, l.head? = some c → p c = false) : l.dropWhile p = l := by
  cases l with
  | nil => rfl
  | cons a as => rw [List.dropWhile_cons_of_neg (by simp [h a rfl])]

theorem dropTrail_idem : ∀ l : Str, dropTrail (dropTrail l) = dropTrail l := by
  intro l
  induction l with
  | nil => rfl
  | cons c cs ih =>
    cases h : dropTrail cs with
    | nil =>
      have hd : dropTrail (c :: cs) = if isJsWs c then [] else [c] := by rw [dropTrail, h]
      by_cases hc : isJsWs c
      · rw [hd, if_pos hc]; rfl
      · rw [hd, if_neg hc, dropTrail]
        simp [hc, dropTrail]
    | cons r rs =>
      have hd : dropTrail (c :: cs) = c :: r :: rs := by rw [dropTrail, h]
      have h2 : dropTrail (r :: rs) = r :: rs := by
        have := ih
        rw [h] at this
        exact this
      rw [hd, dropTrail, h2]

theorem endsLF_dropTrail : ∀ l : Str, endsLF (dropTrail l) = false := by
  intro l
  induction l with
  | nil => rfl
  | cons c cs ih =>
    rw [dropTrail]
    cases h : dropTrail cs with
    | nil =>
      by_cases hc : isJsWs c
      · simp [hc, endsLF]
      · simp only [hc, if_neg, Bool.false_eq_true, ite_false]
        have : c ≠ '\n' := by
          intro hx
          exact hc (by rw [hx]; decide)
        simpa [endsLF] using this
    | cons r rs =>
      simp only
      rw [endsLF_cons (by simp), ← h, ih]

theorem dropTrail_head? : ∀ l : Str, dropTrail l = [] ∨ (dropTrail l).head? = l.head? := by
  intro l
  induction l with
  | nil => exact Or.inl rfl
  | cons c cs _ =>
    rw [dropTrail]
    cases h : dropTrail cs with
    | nil =>
      by_cases hc : isJsWs c
      · simp [hc]
      · simp [hc]
    | cons r rs => simp

theorem dropTrail_append_rest : ∀ l : Str, ∃ t, l = dropTrail l ++ t := by
  intro l
  induction l with
  | nil => exact ⟨[], rfl⟩
  | cons c cs ih =>
    obtain ⟨t, ht⟩ := ih
    cases h : dropTrail cs with
    | nil =>
      have hd : dropTrail (c :: cs) = if isJsWs c then [] else [c] := by rw [dropTrail, h]
      by_cases hc : isJsWs c
      · exact ⟨c :: cs, by rw [hd, if_pos hc]; rfl⟩
      · refine ⟨t, ?_⟩
        rw [hd, if_neg hc]
        have : cs = t := by rw [ht, h]; rfl
        simp [this]
    | cons r rs =>
      have hd : dropTrail (c :: cs) = c :: r :: rs := by rw [dropTrail, h]
      refine ⟨t, ?_⟩
      rw [hd]
      simp only [List.cons_append, List.cons.injEq, true_and]
      rw [ht, h]
      simp

theorem hasSep_dropTrail {l : Str} (h : hasSep l = false) : hasSep (dropTrail l) = false := by
  obtain ⟨t, ht⟩ := dropTrail_append_rest l
  exact hasSep_append_left (ht ▸ h)

theorem hasSep_dropWhile {p : Char → Bool} {l : Str} (h : hasSep l = false) :
    hasSep (l.dropWhile p) = false := by
  apply @hasSep_append_right (l.takeWhile p) (l.dropWhile p)
  rw [List.takeWhile_append_dropWhile]
  exact h

theorem hasSep_trim {l : Str} (h : hasSep l = false) : hasSep (trim l) = false :=
  hasSep_dropTrail (hasSep_dropWhile h)

theorem endsLF_trim (l : Str) : endsLF (trim l) = false := endsLF_dropTrail _

theorem trim_trim (s : Str) : trim (trim s) = trim s := by
  rw [trim, trim]
  have h1 : (dropTrail (s.dropWhile isJsWs)).dropWhile isJsWs = dropTrail (s.dropWhile isJsWs) := by
    apply dropWhile_eq_self_of_head
    intro c hc
    rcases dropTrail_head? (s.dropWhile isJsWs) with hnil | hhead
    · rw [hnil] at hc; simp at hc
    · exact dropWhile_head_not isJsWs s (hhead ▸ hc)
  rw [h1, dropTrail_idem]

/-- The trim and rejoin step of the normalizer is idempotent on its own. -/
theorem trimJoin_stable (u : Str) :
    joinSep ((splitLB (joinSep ((splitLB u).map trim))).map trim) =
      joinSep ((splitLB u).map trim) := by
  have hsep : ∀ p ∈ (splitLB u).map trim, hasSep p = false := by
    intro p hp
    obtain ⟨q, hq, rfl⟩ := List.mem_map.mp hp
    exact hasSep_trim (hasSep_splitLB u q hq)
  have hend : ∀ p ∈ (splitLB u).map trim, endsLF p = false := by
    intro p hp
    obtain ⟨q, _, rfl⟩ := List.mem_map.mp hp
    exact endsLF_trim q
  have hne : (splitLB u).map trim ≠ [] := by
    intro h
    exact splitLB_ne_nil u (List.map_eq_nil_iff.mp h)
  rw [splitLB_joinSep_clean hne hsep hend, List.map_map]
  congr 1
  apply List.map_congr_left
  intro q _
  exact trim_trim q

/-- C7, corrected statement.  Normalization of a string whose normalized form
is a fixed point of the five replacement passes reduces to the paragraph trim
and rejoin step, which is idempotent. -/
theorem claim7_normalize_idempotent_amended (s : Str)
    (h1 : jsReplace tryMath (fun _ => S ("__MATH__")) (normalizeString s) = normalizeString s)
    (h2 : jsReplace tryGraphie (fun _ => S ("__GRAPHIE__")) (normalizeString s) = normalizeString s)
    (h3 : jsReplace tryWidget (fun _ => S ("__WIDGET__")) (normalizeString s) = normalizeString s)
    (h4 : jsReplace tryMW (fun _ => S ("__MATH__ __WIDGET__")) (normalizeString s) = normalizeString s)
    (h5 : jsReplace tryBold (fun m => (m.drop 2).take (m.length - 4)) (normalizeString s) = normalizeString s) :
    normalizeString (normalizeString s) = normalizeString s := by
  conv_lhs => rw [normalizeString]
  simp only [h1, h2, h3, h4, h5]
  conv_rhs => rw [normalizeString]
  conv_lhs =>
    rw [show normalizeString s =
      joinSep ((splitLB (jsReplace tryBold (fun m => (m.drop 2).take (m.length - 4))
        (jsReplace tryMW (fun _ => S ("__MATH__ __WIDGET__"))
          (jsReplace tryWidget (fun _ => S ("__WIDGET__"))
            (jsReplace tryGraphie (fun _ => S ("__GRAPHIE__"))
              (jsReplace tryMath (fun _ => S ("__MATH__")) s)))))).map trim) from rfl]
  rw [trimJoin_stable]

/-- C7 counterexample: normalization is not idempotent.  Normalizing the
five-character string dollar dollar a dollar dollar masks its middle math
substring but leaves the outer dollars, and the second pass then masks the
whole result. -/
theorem claim7_counterexample :
    normalizeString (S ("$$a$$")) = S ("$__MATH__$") ∧
    normalizeString (normalizeString (S ("$$a$$"))) = S ("__MATH__") ∧
    decide (normalizeString (normalizeString (S ("$$a$$"))) =
      normalizeString (S ("$$a$$"))) = false := by
  refine ⟨by decide, by decide, by decide⟩

/-- Witness for the amended C7 at a concrete string. -/
theorem claim7_amended_witness :
    jsReplace tryMath (fun _ => S ("__MATH__")) (normalizeString (S ("hi $x$\n\n ok"))) =
      normalizeString (S ("hi $x$\n\n ok")) ∧
    normalizeString (normalizeString (S ("hi $x$\n\n ok"))) =
      normalizeString (S ("hi $x$\n\n ok")) :=
  ⟨by decide, claim7_normalize_idempotent_amended (S ("hi $x$\n\n ok"))
    (by decide) (by decide) (by decide) (by decide) (by decide)⟩

/-! ## Lemmas about grouping. -/

theorem lookupKey_addItem {α : Type} (acc : List (Str × List α)) (k : Str) (x : α) (key : Str) :
    lookupKey (addItem acc k x) key =
      lookupKey acc key ++ (if k = key then [x] else []) := by
  induction acc with
  | nil =>
    by_cases hk : k = key
    · simp [addItem, lookupKey, hk]
    · simp [addItem, lookupKey, hk]
  | cons kl rest ih =>
    obtain ⟨k2, l⟩ := kl
    by_cases h2 : k2 = k
    · subst h2
      by_cases hk : k2 = key
      · simp [addItem, lookupKey, hk]
      · simp [addItem, lookupKey, hk]
    · by_cases hk : k2 = key
      · subst hk
        have : k ≠ k2 := fun h => h2 h.symm
        simp [addItem, lookupKey, h2, this]
      · simp [addItem, lookupKey, h2, hk, ih]

theorem keys_addItem {α : Type} (acc : List (Str × List α)) (k : Str) (x : α) :
    (addItem acc k x).map Prod.fst =
      (if k ∈ acc.map Prod.fst then acc.map Prod.fst else acc.map Prod.fst ++ [k]) := by
  induction acc with
  | nil => simp [addItem]
  | cons kl rest ih =>
    obtain ⟨k2, l⟩ := kl
    by_cases h2 : k2 = k
    · subst h2
      simp [addItem]
    · have hne : k ≠ k2 := fun h => h2 h.symm
      by_cases hmem : k ∈ rest.map Prod.fst
      · simp [addItem, h2, ih, hmem, hne]
      · simp [addItem, h2, ih, hmem, hne]

theorem group_go_lookup {α : Type} (f : α → Str) :
    ∀ (items : List α) (acc : List (Str × List α)) (key : Str),
      lookupKey (items.foldl (fun a x => addItem a (normalizeString (f x)) x) acc) key =
        lookupKey acc key ++
          items.filter (fun x => decide (normalizeString (f x) = key)) := by
  intro items
  induction items with
  | nil => intro acc key; simp
  | cons x xs ih =>
    intro acc key
    rw [List.foldl_cons, ih, lookupKey_addItem]
    by_cases hx : normalizeString (f x) = key
    · simp [hx]
    · simp [hx]

theorem group_go_keys {α : Type} (f : α → Str) :
    ∀ (items : List α) (acc : List (Str × List α)) (key : Str),
      (key ∈ ((items.foldl (fun a x => addItem a (normalizeString (f x)) x) acc).map Prod.fst)) ↔
        (key ∈ acc.map Prod.fst ∨ key ∈ items.map (fun x => normalizeString (f x))) := by
  intro items
  induction items with
  | nil => intro acc key; simp
  | cons x xs ih =>
    intro acc key
    rw [List.foldl_cons, ih, keys_addItem]
    by_cases hmem : normalizeString (f x) ∈ acc.map Prod.fst
    · simp only [if_pos hmem, List.map_cons, List.mem_cons]
      constructor
      · rintro (h | h)
        · exact Or.inl h
        · exact Or.inr (Or.inr h)
      · rintro (h | h | h)
        · exact Or.inl h
        · exact Or.inl (h ▸ hmem)
        · exact Or.inr h
    · simp only [if_neg hmem, List.map_cons, List.mem_cons, List.mem_append,
        List.mem_singleton]
      constructor
      · intro h
        rcases h with (h | h) | h
        · exact Or.inl h
        · exact Or.inr (Or.inl (by simpa using h.symm))
        · exact Or.inr (Or.inr h)
      · intro h
        rcases h with h | h | h
        · exact Or.inl (Or.inl h)
        · exact Or.inl (Or.inr (by simp [h]))
        · exact Or.inr h

theorem group_go_nodup {α : Type} (f : α → Str) :
    ∀ (items : List α) (acc : List (Str × List α)),
      (acc.map Prod.fst).Nodup →
      ((items.foldl (fun a x => addItem a (normalizeString (f x)) x) acc).map Prod.fst).Nodup := by
  intro items
  induction items with
  | nil => intro acc h; simpa using h
  | cons x xs ih =>
    intro acc h
    rw [List.foldl_cons]
    apply ih
    rw [keys_addItem]
    by_cases hmem : normalizeString (f x) ∈ acc.map Prod.fst
    · simpa [hmem] using h
    · rw [if_neg hmem]
      simpa [List.nodup_append] using And.intro h hmem

/-! ## Lemmas about getMapping. -/

theorem idxOf_get {l : List Str} {x : Str} :
    ∀ {i : Nat}, idxOf l x = some i → l.get? i = some x := by
  induction l with
  | nil => intro i h; simp [idxOf] at h
  | cons y ys ih =>
    intro i h
    by_cases hy : y = x
    · rw [idxOf, if_pos hy] at h
      obtain rfl : (0 : Nat) = i := by injection h
      simp [hy]
    · rw [idxOf, if_neg hy] at h
      cases hrec : idxOf ys x with
      | none => rw [hrec] at h; simp at h
      | some i0 =>
        rw [hrec] at h
        obtain rfl : i0 + 1 = i := by injection h
        simpa using ih hrec

theorem getMappingGo_error_iff (inputs : List Str) (lang : Str) (kind : Kind) :
    ∀ outs : List Str,
      (∃ e, getMappingGo inputs lang kind outs = .error e) ↔
        ∃ o ∈ outs, idxOf inputs (ptRw lang o) = none := by
  intro outs
  induction outs with
  | nil => simp [getMappingGo]
  | cons o os ih =>
    simp only [getMappingGo]
    cases hidx : idxOf inputs (ptRw lang o) with
    | none =>
      simp only [hidx]
      constructor
      · intro _; exact ⟨o, by simp, hidx⟩
      · intro _; exact ⟨errMsg kind, rfl⟩
    | some i =>
      simp only [hidx]
      cases hrec : getMappingGo inputs lang kind os with
      | error e =>
        simp only [hrec]
        constructor
        · intro _
          obtain ⟨o2, ho2, hbad⟩ := ih.mp ⟨e, hrec⟩
          exact ⟨o2, by simp [ho2], hbad⟩
        · intro _; exact ⟨e, rfl⟩
      | ok rest =>
        simp only [hrec]
        constructor
        · intro ⟨e, he⟩; exact absurd he (by simp)
        · intro ⟨o2, ho2, hbad⟩
          rcases List.mem_cons.mp ho2 with rfl | hmem
          · rw [hidx] at hbad; exact absurd hbad (by simp)
          · obtain ⟨e, he⟩ := ih.mpr ⟨o2, hmem, hbad⟩
            rw [hrec] at he
            exact absurd he (by simp)

theorem getMappingGo_error_msg (inputs : List Str) (lang : Str) (kind : Kind) :
    ∀ {outs : List Str} {e : Str},
      getMappingGo inputs lang kind outs = .error e → e = errMsg kind := by
  intro outs
  induction outs with
  | nil => intro e h; simp [getMappingGo] at h
  | cons o os ih =>
    intro e h
    simp only [getMappingGo] at h
    cases hidx : idxOf inputs (ptRw lang o) with
    | none =>
      rw [hidx] at h
      injection h with h2
      exact h2.symm
    | some i =>
      rw [hidx] at h
      cases hrec : getMappingGo inputs lang kind os with
      | error e2 =>
        rw [hrec] at h
        injection h with h2
        exact h2 ▸ ih hrec
      | ok rest => rw [hrec] at h; exact absurd h (by simp)

theorem getMappingGo_ok_spec (inputs : List Str) (lang : Str) (kind : Kind) :
    ∀ {outs : List Str} {mp : List Nat},
      getMappingGo inputs lang kind outs = .ok mp →
      ∀ j o, outs.get? j = some o →
        ∃ i, mp.get? j = some i ∧ inputs.get? i = some (ptRw lang o) := by
  intro outs
  induction outs with
  | nil => intro mp _ j o hj; simp at hj
  | cons o0 os ih =>
    intro mp h j o hj
    simp only [getMappingGo] at h
    cases hidx : idxOf inputs (ptRw lang o0) with
    | none => rw [hidx] at h; exact absurd h (by simp)
    | some i0 =>
      rw [hidx] at h
      cases hrec : getMappingGo inputs lang kind os with
      | error e => rw [hrec] at h; exact absurd h (by simp)
      | ok rest =>
        rw [hrec] at h
        injection h with h2
        subst h2
        cases j with
        | zero =>
          obtain rfl : o0 = o := by simpa using hj
          exact ⟨i0, by simp, idxOf_get hidx⟩
        | succ j0 => simpa using ih hrec j0 o (by simpa using hj)

theorem getMapping_error_iff (E T lang : Str) (k : Kind) :
    (∃ e, getMapping E T lang k = .error e) ↔ mappingBad E T lang k := by
  rw [getMapping]
  exact getMappingGo_error_iff _ lang k _

/-! ## The claims about grouping, template errors and the orchestrator. -/

/-- C6: group partitions the items with nothing lost or duplicated: the
bucket of every key is exactly the ordered sublist of items normalizing to
that key, keys are pairwise distinct, and the keys are exactly the
normalizations of the English strings of the items.  The embedding is a pure
function of its arguments, so the inputs cannot be mutated. -/
theorem claim6_group_partition {α : Type} (items : List α) (f : α → Str) :
    (∀ key, lookupKey (group items f) key =
      items.filter (fun x => decide (normalizeString (f x) = key))) ∧
    ((group items f).map Prod.fst).Nodup ∧
    (∀ key, key ∈ (group items f).map Prod.fst ↔
      key ∈ items.map (fun x => normalizeString (f x))) := by
  refine ⟨?_, ?_, ?_⟩
  · intro key
    rw [group, group_go_lookup]
    rfl
  · exact group_go_nodup f items [] (by simp)
  · intro key
    rw [group, group_go_keys]
    simp [lookupKey]

/-- C4: createTemplate returns an error exactly when some math, graphie or
widget occurrence of the translated string, rewritten for pt, occurs nowhere
among the English occurrences of the same kind, and the error message is the
kind-specific one, math taking precedence over graphie over widget. -/
theorem claim4_createTemplate_error (E T lang : Str) :
    ((∃ e, createTemplate E T lang = .error e) ↔
      (mappingBad E T lang .math ∨ mappingBad E T lang .graphie ∨
        mappingBad E T lang .widget)) ∧
    (mappingBad E T lang .math →
      createTemplate E T lang = .error (errMsg .math)) ∧
    (¬ mappingBad E T lang .math → mappingBad E T lang .graphie →
      createTemplate E T lang = .error (errMsg .graphie)) ∧
    (¬ mappingBad E T lang .math → ¬ mappingBad E T lang .graphie →
      mappingBad E T lang .widget →
      createTemplate E T lang = .error (errMsg .widget)) := by
  have msg : ∀ {k e}, getMapping E T lang k = .error e → e = errMsg k := by
    intro k e h
    exact getMappingGo_error_msg _ lang k h
  cases hM : getMapping E T lang Kind.math with
  | error e =>
    have hbM : mappingBad E T lang .math := (getMapping_error_iff E T lang .math).mp ⟨e, hM⟩
    have he : e = errMsg .math := msg hM
    subst he
    refine ⟨⟨fun _ => Or.inl hbM, fun _ => ⟨errMsg .math, by simp [createTemplate, hM]⟩⟩, ?_, ?_, ?_⟩
    · intro _; simp [createTemplate, hM]
    · intro hn _; exact absurd hbM hn
    · intro hn _ _; exact absurd hbM hn
  | ok mm =>
    have hnM : ¬ mappingBad E T lang .math := by
      intro hb
      obtain ⟨e, he⟩ := (getMapping_error_iff E T lang .math).mpr hb
      rw [hM] at he
      exact absurd he (by simp)
    cases hG : getMapping E T lang Kind.graphie with
    | error e =>
      have hbG : mappingBad E T lang .graphie := (getMapping_error_iff E T lang .graphie).mp ⟨e, hG⟩
      have he : e = errMsg .graphie := msg hG
      subst he
      refine ⟨⟨fun _ => Or.inr (Or.inl hbG),
        fun _ => ⟨errMsg .graphie, by simp [createTemplate, hM, hG]⟩⟩, ?_, ?_, ?_⟩
      · intro hb; exact absurd hb hnM
      · intro _ _; simp [createTemplate, hM, hG]
      · intro _ hn _; exact absurd hbG hn
    | ok gm =>
      have hnG : ¬ mappingBad E T lang .graphie := by
        intro hb
        obtain ⟨e, he⟩ := (getMapping_error_iff E T lang .graphie).mpr hb
        rw [hG] at he
        exact absurd he (by simp)
      cases hW : getMapping E T lang Kind.widget with
      | error e =>
        have hbW : mappingBad E T lang .widget := (getMapping_error_iff E T lang .widget).mp ⟨e, hW⟩
        have he : e = errMsg .widget := msg hW
        subst he
        refine ⟨⟨fun _ => Or.inr (Or.inr hbW),
          fun _ => ⟨errMsg .widget, by simp [createTemplate, hM, hG, hW]⟩⟩, ?_, ?_, ?_⟩
        · intro hb; exact absurd hb hnM
        · intro _ hb; exact absurd hb hnG
        · intro _ _ _; simp [createTemplate, hM, hG, hW]
      | ok wm =>
        have hnW : ¬ mappingBad E T lang .widget := by
          intro hb
          obtain ⟨e, he⟩ := (getMapping_error_iff E T lang .widget).mpr hb
          rw [hW] at he
          exact absurd he (by simp)
        refine ⟨⟨?_, ?_⟩, ?_, ?_, ?_⟩
        · intro ⟨e, he⟩
          rw [createTemplate, hM, hG, hW] at he
          exact absurd he (by simp)
        · intro h
          rcases h with h | h | h
          · exact absurd h hnM
          · exact absurd h hnG
          · exact absurd h hnW
        · intro hb; exact absurd hb hnM
        · intro _ hb; exact absurd hb hnG
        · intro _ _ hb; exact absurd hb hnW

/-- Witness for C4 at concrete strings: the translated string has a math
occurrence absent from the English string, so createTemplate fails with the
math message. -/
theorem claim4_witness :
    mappingBad (S ("no math here")) (S ("oops $x$")) (S ("fr")) .math ∧
    createTemplate (S ("no math here")) (S ("oops $x$")) (S ("fr")) = .error (errMsg .math) := by
  have h := (claim4_createTemplate_error (S ("no math here")) (S ("oops $x$")) (S ("fr"))).2.1
  have hb : mappingBad (S ("no math here")) (S ("oops $x$")) (S ("fr")) .math := by
    refine ⟨S ("$x$"), by decide, by decide⟩
  exact ⟨hb, h hb⟩

/-- C2: whenever no reference pair has two truthy components or the items
normalize into more than one group, suggest returns exactly the output of the
placeholder auto translator, and the reference pair search returns the first
pair in scan order whose two components are truthy. -/
theorem claim2_suggest_fallback {α : Type} (ps : List (Option Str × Option Str))
    (items : List α) (lang : Str) (f : α → Str) :
    ((findTranslationPair ps = none ∨ 1 < (group items f).length) →
      suggest ps items lang f = .pairs (autoTranslatePlaceholders items lang f)) ∧
    findTranslationPair ps =
      (ps.find? (fun p => truthy p.1 && truthy p.2)).map
        (fun p => (p.1.getD [], p.2.getD [])) := by
  constructor
  · intro h
    cases hfp : findTranslationPair ps with
    | none => simp [suggest, hfp]
    | some pr =>
      rcases h with h | h
      · rw [hfp] at h; exact absurd h (by simp)
      · obtain ⟨e, t⟩ := pr
        simp [suggest, hfp, if_pos h]
  · induction ps with
    | nil => simp [findTranslationPair]
    | cons pr rest ih =>
      obtain ⟨a, b⟩ := pr
      cases a with
      | none => simpa [findTranslationPair, truthy] using ih
      | some xa =>
        cases xa with
        | nil =>
          cases b with
          | none => simpa [findTranslationPair, truthy] using ih
          | some xb =>
            cases xb with
            | nil => simpa [findTranslationPair, truthy] using ih
            | cons y ys => simpa [findTranslationPair, truthy] using ih
        | cons x xs =>
          cases b with
          | none => simpa [findTranslationPair, truthy] using ih
          | some xb =>
            cases xb with
            | nil => simpa [findTranslationPair, truthy] using ih
            | cons y ys => simp [findTranslationPair, truthy]

/-- Witness for C2: no pair is truthy, so suggest is the auto translator. -/
theorem claim2_witness :
    (findTranslationPair [(none, none)] = none ∨
      1 < (group [S ("a")] (fun x => x)).length) ∧
    suggest [(none, none)] [S ("a")] (S ("fr")) (fun x => x) =
      .pairs (autoTranslatePlaceholders [S ("a")] (S ("fr")) (fun x => x)) :=
  ⟨Or.inl rfl,
    (claim2_suggest_fallback [(none, none)] [S ("a")] (S ("fr")) (fun x => x)).1 (Or.inl rfl)⟩

/-- C3: when a usable reference pair exists, the items form at most one
normalized group, and createTemplate fails, suggest returns that failure as
the overall result: no per-item suggestions and no auto-translation
fallback. -/
theorem claim3_template_error_propagates {α : Type}
    (ps : List (Option Str × Option Str)) (items : List α) (lang : Str) (f : α → Str)
    (e t msg : Str)
    (hfp : findTranslationPair ps = some (e, t))
    (hgroups : ¬ 1 < (group items f).length)
    (herr : createTemplate e t lang = .error msg) :
    suggest ps items lang f = .err msg := by
  simp [suggest, hfp, if_neg hgroups, herr]

/-- Witness for C3: the pair is usable, the single item forms one group, and
the translated math does not occur in the English string. -/
theorem claim3_witness :
    findTranslationPair [(some (S ("abc")), some (S ("xyz $q$")))] =
      some (S ("abc"), S ("xyz $q$")) ∧
    createTemplate (S ("abc")) (S ("xyz $q$")) (S ("de")) = .error (errMsg .math) ∧
    suggest [(some (S ("abc")), some (S ("xyz $q$")))] [S ("abc")] (S ("de")) (fun x => x) =
      .err (errMsg .math) :=
  ⟨rfl, by rfl,
    claim3_template_error_propagates _ _ _ _ _ _ _ rfl (by decide) (by rfl)⟩

/-- C5, evaluated at a failing input.  populateTemplate is claimed to apply
the per-language math transform to every extracted math occurrence, but the
source maps translateMath over the occurrence array directly, so the array
index is passed as the lang argument and the transform never fires: for pt,
the template built from sin-to-sen reference strings is populated with the
untransformed sin form, where the claim demands the operatorname sen form
produced by translateMath. -/
theorem claim5_populate_ignores_lang :
    createTemplate (S ("$\\sin(x)$")) (S ("$\\operatorname{sen}(x)$")) (S ("pt")) =
      .ok ⟨[S ("__MATH__")], [0], [], []⟩ ∧
    populateTemplate ⟨[S ("__MATH__")], [0], [], []⟩ (S ("$\\sin(x)$")) (S ("pt")) =
      some (S ("$\\sin(x)$")) ∧
    translateMath (S ("$\\sin(x)$")) (S ("pt")) = S ("$\\operatorname{sen}(x)$") ∧
    decide (S ("$\\sin(x)$") = S ("$\\operatorname{sen}(x)$")) = false :=
  ⟨by rfl, by rfl, by rfl, by rfl⟩

/-- C8, evaluated at a failing input.  In the branch for math containing a
text command, the source returns the English string, not the item, as the
first component of the produced pair (the left injection is the item, the
right injection the English string); the other branches return the item as
the claim states. -/
theorem claim8_auto_text_returns_string :
    autoTranslatePlaceholders [TItem.mk 7 (S ("$\\text{cost}$"))] (S ("fr")) TItem.englishStr =
      [(Sum.inr (S ("$\\text{cost}$")), none)] ∧
    autoTranslatePlaceholders [TItem.mk 8 (S ("$\\sin(x)$"))] (S ("pt")) TItem.englishStr =
      [(Sum.inl (TItem.mk 8 (S ("$\\sin(x)$"))), some (S ("$\\operatorname{sen}(x)$")))] ∧
    autoTranslatePlaceholders [TItem.mk 9 (S ("[[☃ Expression 1]]"))] (S ("pt")) TItem.englishStr =
      [(Sum.inl (TItem.mk 9 (S ("[[☃ Expression 1]]"))), some (S ("[[☃ Expression 1]]")))] ∧
    autoTranslatePlaceholders [TItem.mk 10 (S ("hello"))] (S ("pt")) TItem.englishStr =
      [(Sum.inl (TItem.mk 10 (S ("hello"))), none)] :=
  ⟨by rfl, by rfl, by rfl, by rfl⟩

/-- C9: the end-to-end example of the specification.  With one null pair, one
usable reference pair, a single item and the pt locale, suggest produces
exactly one suggestion pair with the expected translated text. -/
theorem claim9_suggest_example :
    suggest
      [(none, none),
       (some (S ("simplify $2/4$\n\nhint: the denominator is $2$")),
        some (S ("simplifique $2/4$\n\npista: o denominador \u00e9 $2$")))]
      [TItem.mk 1001 (S ("simplify $3/12$\n\nhint: the denominator is $4$"))]
      (S ("pt")) TItem.englishStr =
      .pairs
        [(Sum.inl (TItem.mk 1001 (S ("simplify $3/12$\n\nhint: the denominator is $4$"))),
          some (S ("simplifique $3/12$\n\npista: o denominador \u00e9 $4$")))] := by
  rfl

/-! ## Lemmas about populateTemplate used for C10 and C1. -/

theorem mapTranslateMathJsGo_id : ∀ (i : Nat) (l : List Str), mapTranslateMathJsGo i l = l := by
  intro i l
  induction l generalizing i with
  | nil => rfl
  | cons m ms ih => simp [mapTranslateMathJsGo, translateMathIndexed, ih]

theorem mapTranslateMathJs_id (l : List Str) : mapTranslateMathJs l = l :=
  mapTranslateMathJsGo_id 0 l

theorem mem_of_get? {α : Type} : ∀ {l : List α} {n : Nat} {a : α}, l.get? n = some a → a ∈ l := by
  intro l
  induction l with
  | nil => intro n a h; simp at h
  | cons x xs ih =>
    intro n a h
    cases n with
    | zero =>
      obtain rfl : x = a := by simpa using h
      simp
    | succ n0 => simp [ih (by simpa using h)]

theorem jsLookup_cases (arr : List Str) (mp : List Nat) (i : Nat) :
    jsLookup arr mp i = undefinedStr ∨ jsLookup arr mp i ∈ arr := by
  cases hmp : mp.get? i with
  | none => exact Or.inl (by simp [jsLookup, ← List.get?_eq_getElem?, hmp])
  | some j =>
    cases harr : arr.get? j with
    | none => exact Or.inl (by simp [jsLookup, ← List.get?_eq_getElem?, hmp, harr])
    | some v =>
      refine Or.inr ?_
      have hv : jsLookup arr mp i = v := by
        simp [jsLookup, ← List.get?_eq_getElem?, hmp, harr]
      rw [hv]
      exact mem_of_get? harr

theorem replaceScanSt_chars_aux {σ : Type} (mu : Str → σ → Option (Nat × Str × σ))
    (P : Char → Prop)
    (hrep : ∀ s st n r st2, mu s st = some (n, r, st2) → ∀ c ∈ r, P c) :
    ∀ (N : Nat) (k : Nat) (st : σ) (s : Str), s.length ≤ N → (∀ c ∈ s, P c) →
      ∀ c ∈ (replaceScanSt mu k st s).1, P c := by
  intro N
  induction N with
  | zero =>
    intro k st s hN hs c hc
    obtain rfl : s = [] := List.length_eq_zero.mp (Nat.le_zero.mp hN)
    cases k with
    | zero => simp [replaceScanSt] at hc
    | succ k0 => simp [replaceScanSt] at hc
  | succ N ih =>
    intro k st s hN hs c hc
    cases s with
    | nil =>
      cases k with
      | zero => simp [replaceScanSt] at hc
      | succ k0 => simp [replaceScanSt] at hc
    | cons a as =>
      have hlen : as.length ≤ N := by simpa using hN
      cases k with
      | zero =>
        rw [replaceScanSt] at hc
        cases hmu : mu (a :: as) st with
        | some triple =>
          obtain ⟨n, r, st2⟩ := triple
          simp only [hmu] at hc
          rcases List.mem_append.mp hc with h | h
          · exact hrep _ _ _ _ _ hmu c h
          · exact ih (n - 1) st2 as hlen (fun x hx => hs x (by simp [hx])) c h
        | none =>
          simp only [hmu] at hc
          rcases List.mem_cons.mp hc with rfl | h
          · exact hs c (by simp)
          · exact ih 0 st as hlen (fun x hx => hs x (by simp [hx])) c h
      | succ k0 =>
        rw [replaceScanSt] at hc
        exact ih k0 st as hlen (fun x hx => hs x (by simp [hx])) c hc

theorem replaceScanSt_chars {σ : Type} (mu : Str → σ → Option (Nat × Str × σ))
    (P : Char → Prop)
    (hrep : ∀ s st n r st2, mu s st = some (n, r, st2) → ∀ c ∈ r, P c) :
    ∀ (k : Nat) (st : σ) (s : Str), (∀ c ∈ s, P c) →
      ∀ c ∈ (replaceScanSt mu k st s).1, P c := by
  intro k st s
  exact replaceScanSt_chars_aux mu P hrep s.length k st s (Nat.le_refl _)

theorem popLine_chars (m g w : List Str) (t : Template) (line : Str)
    (cm cg cw : Nat) (P : Char → Prop)
    (hund : ∀ c ∈ undefinedStr, P c)
    (hm : ∀ x ∈ m, ∀ c ∈ x, P c) (hg : ∀ x ∈ g, ∀ c ∈ x, P c)
    (hw : ∀ x ∈ w, ∀ c ∈ x, P c)
    (hline : ∀ c ∈ line, P c) :
    ∀ c ∈ (popLine m g w t line cm cg cw).1, P c := by
  have step : ∀ (pat : Str) (arr : List Str) (mp : List Nat),
      (∀ x ∈ arr, ∀ c ∈ x, P c) →
      ∀ s st n r st2, phMatcher pat (jsLookup arr mp) s st = some (n, r, st2) →
        ∀ c ∈ r, P c := by
    intro pat arr mp harr s st n r st2 hmu c hc
    rw [phMatcher] at hmu
    by_cases hp : pat.isPrefixOf s
    · rw [if_pos hp] at hmu
      injection hmu with h2
      have hr : jsLookup arr mp st = r := congrArg (fun x => x.2.1) h2
      rw [← hr] at hc
      rcases jsLookup_cases arr mp st with hcase | hcase
      · rw [hcase] at hc
        exact hund c hc
      · exact harr _ hcase c hc
    · rw [if_neg hp] at hmu; exact absurd hmu (by simp)
  rw [popLine]
  intro c hc
  refine replaceScanSt_chars _ P (step _ w t.widgetMapping hw) 0 cw _ ?_ c hc
  refine replaceScanSt_chars _ P (step _ g t.graphieMapping hg) 0 cg _ ?_
  exact replaceScanSt_chars _ P (step _ m t.mathMapping hm) 0 cm line hline

theorem populateLines_spec (m g w : List Str) (t : Template) (P : Char → Prop)
    (hund : ∀ c ∈ undefinedStr, P c)
    (hm : ∀ x ∈ m, ∀ c ∈ x, P c) (hg : ∀ x ∈ g, ∀ c ∈ x, P c)
    (hw : ∀ x ∈ w, ∀ c ∈ x, P c) :
    ∀ (es tls : List Str) (cm cg cw : Nat), es.length ≤ tls.length →
      (∀ p ∈ tls.take es.length, ∀ c ∈ p, P c) →
      ∃ ls, populateLines m g w t es tls cm cg cw = some ls ∧
        ls.length = es.length ∧ ∀ p ∈ ls, ∀ c ∈ p, P c := by
  intro es
  induction es with
  | nil => intro tls cm cg cw _ _; exact ⟨[], rfl, rfl, by simp⟩
  | cons e es' ih =>
    intro tls cm cg cw hlen htls
    cases tls with
    | nil => simp at hlen
    | cons tl tls' =>
      have hlen' : es'.length ≤ tls'.length := by simpa using hlen
      have htl : ∀ c ∈ tl, P c := htls tl (by simp)
      have htls' : ∀ p ∈ tls'.take es'.length, ∀ c ∈ p, P c := by
        intro p hp
        exact htls p (by simp [hp])
      obtain ⟨ls, hls, hlslen, hlsP⟩ :=
        ih tls' (popLine m g w t tl cm cg cw).2.1 (popLine m g w t tl cm cg cw).2.2.1
          (popLine m g w t tl cm cg cw).2.2.2 hlen' htls'
      refine ⟨(popLine m g w t tl cm cg cw).1 :: ls, ?_, by simp [hlslen], ?_⟩
      · rw [populateLines]
        simp [hls]
      · intro p hp
        rcases List.mem_cons.mp hp with rfl | hmem
        · exact popLine_chars m g w t tl cm cg cw P hund hm hg hw htl
        · exact hlsP p hmem

theorem populateLines_take (m g w : List Str) (t : Template) :
    ∀ (es tls : List Str) (cm cg cw : Nat),
      populateLines m g w t es (tls.take es.length) cm cg cw =
        populateLines m g w t es tls cm cg cw := by
  intro es
  induction es with
  | nil => intro tls cm cg cw; rfl
  | cons e es' ih =>
    intro tls cm cg cw
    cases tls with
    | nil => rfl
    | cons tl tls' =>
      rw [List.length_cons, List.take_succ_cons, populateLines, populateLines, ih]

theorem populateLines_mappings (m g w : List Str) (t t' : Template)
    (h1 : t.mathMapping = t'.mathMapping) (h2 : t.graphieMapping = t'.graphieMapping)
    (h3 : t.widgetMapping = t'.widgetMapping) :
    ∀ (es tls : List Str) (cm cg cw : Nat),
      populateLines m g w t es tls cm cg cw = populateLines m g w t' es tls cm cg cw := by
  have hpop : ∀ line cm cg cw, popLine m g w t line cm cg cw = popLine m g w t' line cm cg cw := by
    intro line cm cg cw
    rw [popLine, popLine, h1, h2, h3]
  intro es
  induction es with
  | nil => intro tls cm cg cw; rfl
  | cons e es' ih =>
    intro tls cm cg cw
    cases tls with
    | nil => rfl
    | cons tl tls' => rw [populateLines, populateLines, hpop, ih]

theorem hasSep_of_noLF : ∀ {l : Str}, (∀ c ∈ l, c ≠ '\n') → hasSep l = false := by
  intro l
  induction l with
  | nil => intro _; rfl
  | cons c cs ih =>
    intro h
    cases cs with
    | nil => rfl
    | cons d rest =>
      rw [hasSep]
      have hc : c ≠ '\n' := h c (by simp)
      simp only [Bool.or_eq_false_iff]
      exact ⟨by simp [hc], ih (fun x hx => h x (by simp [hx]))⟩

theorem endsLF_of_noLF : ∀ {l : Str}, (∀ c ∈ l, c ≠ '\n') → endsLF l = false := by
  intro l
  induction l with
  | nil => intro _; rfl
  | cons c cs ih =>
    intro h
    cases cs with
    | nil => simpa [endsLF] using h c (by simp)
    | cons d rest =>
      rw [endsLF_cons (by simp)]
      exact ih (fun x hx => h x (by simp [hx]))

/-- C10 counterexample: a successfully constructed two-line template, an
English string of two paragraphs (within the template line count, with the
single consumed mapping index in range), whose populated output has three
paragraphs, because the substituted math occurrence itself contains the
paragraph delimiter. -/
theorem claim10_counterexample :
    createTemplate (S ("$c$ $a\n\nb$")) (S ("$c$\n\nx")) (S ("es")) =
      .ok ⟨[S ("__MATH__"), S ("x")], [0], [], []⟩ ∧
    (splitLB (S ("$a\n\nb$"))).length = 2 ∧
    (jsMatch tryMath (S ("$a\n\nb$"))).length = 1 ∧
    populateTemplate ⟨[S ("__MATH__"), S ("x")], [0], [], []⟩ (S ("$a\n\nb$")) (S ("es")) =
      some (S ("$a\n\nb$\n\nx")) ∧
    (splitLB (S ("$a\n\nb$\n\nx"))).length = 3 :=
  ⟨by rfl, by rfl, by rfl, by rfl, by rfl⟩

/-- C10, corrected statement.  When the English paragraph count is within the
template line count, populateTemplate succeeds and uses exactly one template
line per English paragraph, so template lines beyond the English paragraph
count are dropped: truncating them does not change the output.  The output
has exactly as many paragraphs as the English string under the further
condition, forced by the counterexample, that no extracted occurrence and no
used template line contains a line feed. -/
theorem claim10_populate_paragraphs_amended (t : Template) (E lang : Str)
    (hlen : (splitLB E).length ≤ t.lines.length)
    (hm : ∀ x ∈ jsMatch tryMath E, ∀ c ∈ x, c ≠ '\n')
    (hg : ∀ x ∈ jsMatch tryGraphie E, ∀ c ∈ x, c ≠ '\n')
    (hw : ∀ x ∈ jsMatch tryWidget E, ∀ c ∈ x, c ≠ '\n')
    (hlines : ∀ p ∈ t.lines.take (splitLB E).length, ∀ c ∈ p, c ≠ '\n') :
    ∃ r, populateTemplate t E lang = some r ∧
      (splitLB r).length = (splitLB E).length ∧
      populateTemplate ⟨t.lines.take (splitLB E).length, t.mathMapping,
        t.graphieMapping, t.widgetMapping⟩ E lang = some r := by
  have hund : ∀ c ∈ undefinedStr, c ≠ '\n' := by decide
  obtain ⟨ls, hls, hlslen, hlsP⟩ :=
    populateLines_spec (mapTranslateMathJs (jsMatch tryMath E)) (jsMatch tryGraphie E)
      (jsMatch tryWidget E) t (fun c => c ≠ '\n') hund
      (by rw [mapTranslateMathJs_id]; exact hm) hg hw
      (splitLB E) t.lines 0 0 0 hlen hlines
  refine ⟨joinSep ls, ?_, ?_, ?_⟩
  · rw [populateTemplate, hls]
  · have hne : ls ≠ [] := by
      intro h
      have := splitLB_ne_nil E
      rw [h] at hlslen
      exact this (List.length_eq_zero.mp hlslen.symm)
    rw [splitLB_joinSep_clean hne
      (fun p hp => hasSep_of_noLF (hlsP p hp))
      (fun p hp => endsLF_of_noLF (hlsP p hp)), hlslen]
  · rw [populateTemplate]
    have heq : populateLines (mapTranslateMathJs (jsMatch tryMath E)) (jsMatch tryGraphie E)
        (jsMatch tryWidget E)
        (⟨t.lines.take (splitLB E).length, t.mathMapping, t.graphieMapping, t.widgetMapping⟩ : Template)
        (splitLB E) (t.lines.take (splitLB E).length) 0 0 0 = some ls := by
      rw [populateLines_mappings _ _ _
        (⟨t.lines.take (splitLB E).length, t.mathMapping, t.graphieMapping,
          t.widgetMapping⟩ : Template) t rfl rfl rfl, populateLines_take]
      exact hls
    simp only [heq]

/-- Witness for the amended C10 at a concrete template and English string. -/
theorem claim10_amended_witness :
    (splitLB (S ("$u$"))).length ≤
      ([S ("__MATH__ y"), S ("z")] : List Str).length ∧
    (∃ r, populateTemplate ⟨[S ("__MATH__ y"), S ("z")], [0], [], []⟩ (S ("$u$")) (S ("fr")) =
        some r ∧
      (splitLB r).length = (splitLB (S ("$u$"))).length ∧
      populateTemplate ⟨([S ("__MATH__ y"), S ("z")] : List Str).take (splitLB (S ("$u$"))).length,
        [0], [], []⟩ (S ("$u$")) (S ("fr")) = some r) :=
  ⟨by decide,
    claim10_populate_paragraphs_amended ⟨[S ("__MATH__ y"), S ("z")], [0], [], []⟩
      (S ("$u$")) (S ("fr")) (by decide) (by decide) (by decide) (by decide) (by decide)⟩

/-! ## Lemmas for C1: populating a freshly built template with the same
English string. -/

theorem tryMath_pos : ∀ {s : Str} {n : Nat}, tryMath s = some n → 1 ≤ n := by
  intro s n h
  rw [tryMath.eq_def] at h
  split at h
  · rename_i rest
    cases hmt : mathTail rest with
    | none => rw [hmt] at h; exact absurd h (by simp)
    | some n0 =>
      rw [hmt] at h
      have h' : (if 2 ≤ n0 then some (n0 + 1) else none) = some n := h
      by_cases h2 : 2 ≤ n0
      · rw [if_pos h2] at h'
        injection h' with h3
        omega
      · rw [if_neg h2] at h'
        exact absurd h' (by simp)
  · exact absurd h (by simp)

theorem tryGraphie_head_none {c : Char} {cs : Str} (h : c ≠ '!') :
    tryGraphie (c :: cs) = none := by
  have hS : S ("![](") = '!' :: S ("[](") := rfl
  rw [tryGraphie, hS, isPrefixOf_cons_false h]
  simp

theorem tryWidget_head_none {c : Char} {cs : Str} (h : c ≠ '[') :
    tryWidget (c :: cs) = none := by
  have hS : S ("[[☃") = '[' :: S ("[☃") := rfl
  rw [tryWidget, hS, isPrefixOf_cons_false h]
  simp

theorem get?_append_left_of_some {α : Type} :
    ∀ {l l' : List α} {j : Nat} {a : α}, l.get? j = some a → (l ++ l').get? j = some a := by
  intro l
  induction l with
  | nil => intro l' j a h; simp at h
  | cons x xs ih =>
    intro l' j a h
    cases j with
    | zero => simpa using h
    | succ j0 => simpa using ih (by simpa using h)

theorem get?_append_right_len {α : Type} :
    ∀ (l l' : List α) (j : Nat), (l ++ l').get? (l.length + j) = l'.get? j := by
  intro l
  induction l with
  | nil => intro l' j; simp
  | cons x xs ih =>
    intro l' j
    have harith : (x :: xs).length + j = (xs.length + j) + 1 := by
      simp [List.length_cons]
      omega
    rw [harith]
    simpa using ih l' j

theorem replaceScan_chars_aux (mu : Str → Option Nat) (pat : Str) :
    ∀ (N : Nat) (k : Nat) (s : Str), s.length ≤ N →
      ∀ c ∈ replaceScan mu (fun _ => pat) k s, c ∈ s ∨ c ∈ pat := by
  intro N
  induction N with
  | zero =>
    intro k s hN c hc
    obtain rfl : s = [] := List.length_eq_zero.mp (Nat.le_zero.mp hN)
    cases k with
    | zero => simp [replaceScan] at hc
    | succ k0 => simp [replaceScan] at hc
  | succ N ih =>
    intro k s hN c hc
    cases s with
    | nil =>
      cases k with
      | zero => simp [replaceScan] at hc
      | succ k0 => simp [replaceScan] at hc
    | cons a as =>
      have hlen : as.length ≤ N := by simpa using hN
      cases k with
      | zero =>
        rw [replaceScan] at hc
        cases hmu : mu (a :: as) with
        | some n =>
          simp only [hmu] at hc
          rcases List.mem_append.mp hc with h | h
          · exact Or.inr h
          · rcases ih (n - 1) as hlen c h with h2 | h2
            · exact Or.inl (by simp [h2])
            · exact Or.inr h2
        | none =>
          simp only [hmu] at hc
          rcases List.mem_cons.mp hc with rfl | h
          · exact Or.inl (by simp)
          · rcases ih 0 as hlen c h with h2 | h2
            · exact Or.inl (by simp [h2])
            · exact Or.inr h2
      | succ k0 =>
        rw [replaceScan] at hc
        rcases ih k0 as hlen c hc with h2 | h2
        · exact Or.inl (by simp [h2])
        · exact Or.inr h2

/-- Substituting the matched texts back for the placeholders inverts the
masking replacement, provided the line is free of underscores (so that the
only occurrences of the placeholder in the masked line are the inserted
ones) and the substitution function yields exactly the matched texts in
order.  The final counter advances by the number of matches. -/
theorem substBack_mask_aux (mu : Str → Option Nat) (pat : Str) (txt : Nat → Str)
    (hpat : pat.head? = some '_')
    (hone : ∀ {s : Str} {n : Nat}, mu s = some n → 1 ≤ n) :
    ∀ (N : Nat) (line : Str) (c0 : Nat), line.length ≤ N →
      (∀ c ∈ line, c ≠ '_') →
      (∀ j tx, (matchScan mu 0 line).get? j = some tx → txt (c0 + j) = tx) →
      replaceScanSt (phMatcher pat txt) 0 c0 (replaceScan mu (fun _ => pat) 0 line) =
        (line, c0 + (matchScan mu 0 line).length) := by
  intro N
  induction N with
  | zero =>
    intro line c0 hN _ _
    obtain rfl : line = [] := List.length_eq_zero.mp (Nat.le_zero.mp hN)
    simp [replaceScan, replaceScanSt, matchScan]
  | succ N ih =>
    intro line c0 hN hus htxt
    cases line with
    | nil => simp [replaceScan, replaceScanSt, matchScan]
    | cons a as =>
      have haslen : as.length ≤ N := by simpa using hN
      cases hmu : mu (a :: as) with
      | none =>
        have hmask : replaceScan mu (fun _ => pat) 0 (a :: as) =
            a :: replaceScan mu (fun _ => pat) 0 as := by
          rw [replaceScan, hmu]
        have hmatch : matchScan mu 0 (a :: as) = matchScan mu 0 as := by
          rw [matchScan, hmu]
        rw [hmask, replaceScanSt, phMatcher_none hpat (hus a (by simp))]
        rw [ih as c0 haslen (fun c hc => hus c (by simp [hc]))
          (fun j tx hj => htxt j tx (by rw [hmatch]; exact hj))]
        rw [hmatch]
      | some n =>
        have hn1 : 1 ≤ n := hone hmu
        have hmask : replaceScan mu (fun _ => pat) 0 (a :: as) =
            pat ++ replaceScan mu (fun _ => pat) 0 (as.drop (n - 1)) := by
          rw [replaceScan, hmu]
          show pat ++ replaceScan mu (fun _ => pat) (n - 1) as = _
          rw [replaceScan_skip]
        have hmatch : matchScan mu 0 (a :: as) =
            (a :: as).take n :: matchScan mu 0 (as.drop (n - 1)) := by
          rw [matchScan, hmu]
          show (a :: as).take n :: matchScan mu (n - 1) as = _
          rw [matchScan_skip]
        obtain ⟨p0, prest, hp⟩ : ∃ p0 prest, pat = p0 :: prest := by
          cases pat with
          | nil => simp at hpat
          | cons x xs => exact ⟨x, xs, rfl⟩
        set M := replaceScan mu (fun _ => pat) 0 (as.drop (n - 1)) with hM
        have hfire : phMatcher pat txt (pat ++ M) c0 =
            some (pat.length, txt c0, c0 + 1) := by
          rw [phMatcher, if_pos (isPrefixOf_append_self pat M)]
        have hcons : pat ++ M = p0 :: (prest ++ M) := by rw [hp]; simp
        have hplen : pat.length - 1 = prest.length := by rw [hp]; simp
        have hskip : replaceScanSt (phMatcher pat txt) (pat.length - 1) (c0 + 1) (prest ++ M) =
            replaceScanSt (phMatcher pat txt) 0 (c0 + 1) M := by
          rw [hplen]
          exact replaceScanSt_prefix_skip _ prest M (c0 + 1)
        have hdroplen : (as.drop (n - 1)).length ≤ N := le_trans (by simp) haslen
        have hdropus : ∀ c ∈ as.drop (n - 1), c ≠ '_' := by
          intro c hc
          exact hus c (by simp [List.mem_of_mem_drop hc])
        have hdroptxt : ∀ j tx, (matchScan mu 0 (as.drop (n - 1))).get? j = some tx →
            txt (c0 + 1 + j) = tx := by
          intro j tx hj
          have : (matchScan mu 0 (a :: as)).get? (j + 1) = some tx := by
            rw [hmatch]
            simpa using hj
          have h2 := htxt (j + 1) tx this
          rw [← h2]
          congr 1
          omega
        have hrec := ih (as.drop (n - 1)) (c0 + 1) hdroplen hdropus hdroptxt
        have htxt0 : txt c0 = (a :: as).take n := by
          have : (matchScan mu 0 (a :: as)).get? 0 = some ((a :: as).take n) := by
            rw [hmatch]; rfl
          simpa using htxt 0 _ this
        have hfire' : phMatcher pat txt (p0 :: (prest ++ M)) c0 =
            some (pat.length, txt c0, c0 + 1) := by
          rw [← hcons]
          exact hfire
        rw [hmask, hcons, replaceScanSt, hfire']
        show (txt c0 ++ (replaceScanSt (phMatcher pat txt) (pat.length - 1) (c0 + 1) (prest ++ M)).1,
            (replaceScanSt (phMatcher pat txt) (pat.length - 1) (c0 + 1) (prest ++ M)).2) = _
        rw [hskip, hrec, htxt0, hmatch]
        simp only [Prod.mk.injEq]
        constructor
        · obtain ⟨n0, rfl⟩ : ∃ n0, n = n0 + 1 := ⟨n - 1, by omega⟩
          rw [List.take_succ_cons]
          simp [List.take_append_drop]
        · rw [List.length_cons]
          omega

theorem jsReplace_id (mu : Str → Option Nat) (f : Str → Str) (P : Char → Prop)
    (hmu : ∀ c cs, P c → mu (c :: cs) = none) (s : Str) (hs : ∀ c ∈ s, P c) :
    jsReplace mu f s = s :=
  replaceScan_id mu f P hmu s hs

theorem popLine_roundtrip (maths g w : List Str) (t : Template) (line : Str)
    (cm cg cw : Nat)
    (hus : ∀ c ∈ line, c ≠ '_')
    (hbang : ∀ c ∈ line, c ≠ '!')
    (hbr : ∀ c ∈ line, c ≠ '[')
    (htxt : ∀ j tx, (jsMatch tryMath line).get? j = some tx →
      jsLookup maths t.mathMapping (cm + j) = tx) :
    popLine maths g w t (maskLine line) cm cg cw =
      (line, cm + (jsMatch tryMath line).length, cg, cw) := by
  have hphm : ∀ c ∈ S ("__MATH__"), c ≠ '!' ∧ c ≠ '[' := by decide
  have hMMchars : ∀ c ∈ jsReplace tryMath (fun _ => S ("__MATH__")) line,
      c ∈ line ∨ c ∈ S ("__MATH__") := by
    intro c hc
    exact replaceScan_chars_aux tryMath _ line.length 0 line (Nat.le_refl _) c hc
  have hMMbang : ∀ c ∈ jsReplace tryMath (fun _ => S ("__MATH__")) line, c ≠ '!' := by
    intro c hc
    rcases hMMchars c hc with h | h
    · exact hbang c h
    · exact (hphm c h).1
  have hMMbr : ∀ c ∈ jsReplace tryMath (fun _ => S ("__MATH__")) line, c ≠ '[' := by
    intro c hc
    rcases hMMchars c hc with h | h
    · exact hbr c h
    · exact (hphm c h).2
  have hmaskLine : maskLine line = jsReplace tryMath (fun _ => S ("__MATH__")) line := by
    rw [maskLine]
    rw [jsReplace_id tryGraphie _ (fun c => c ≠ '!')
      (fun c cs h => tryGraphie_head_none h) _ hMMbang]
    rw [jsReplace_id tryWidget _ (fun c => c ≠ '[')
      (fun c cs h => tryWidget_head_none h) _ hMMbr]
  have h1 : replaceScanSt (phMatcher (S ("__MATH__")) (jsLookup maths t.mathMapping)) 0 cm
      (maskLine line) = (line, cm + (jsMatch tryMath line).length) := by
    rw [hmaskLine]
    exact substBack_mask_aux tryMath (S ("__MATH__")) (jsLookup maths t.mathMapping) rfl
      (fun {s n} h => tryMath_pos h) line.length line cm (Nat.le_refl _) hus htxt
  have h2 : replaceScanSt (phMatcher (S ("__GRAPHIE__")) (jsLookup g t.graphieMapping)) 0 cg
      line = (line, cg) :=
    replaceScanSt_id _ (fun c => c ≠ '_')
      (fun c cs st h =>
        @phMatcher_none (S ("__GRAPHIE__")) (jsLookup g t.graphieMapping) c cs st (by rfl) h)
      line cg hus
  have h3 : replaceScanSt (phMatcher (S ("__WIDGET__")) (jsLookup w t.widgetMapping)) 0 cw
      line = (line, cw) :=
    replaceScanSt_id _ (fun c => c ≠ '_')
      (fun c cs st h =>
        @phMatcher_none (S ("__WIDGET__")) (jsLookup w t.widgetMapping) c cs st (by rfl) h)
      line cw hus
  simp only [popLine, h1, h2, h3]

theorem populateLines_roundtrip (maths g w : List Str) (t : Template) :
    ∀ (ts es : List Str) (cm cg cw : Nat),
      es.length = ts.length →
      (∀ p ∈ ts, ∀ c ∈ p, c ≠ '_' ∧ c ≠ '!' ∧ c ≠ '[') →
      (∀ j tx, (flatMatches tryMath ts).get? j = some tx →
        jsLookup maths t.mathMapping (cm + j) = tx) →
      populateLines maths g w t es (ts.map maskLine) cm cg cw = some ts := by
  intro ts
  induction ts with
  | nil =>
    intro es cm cg cw hlen _ _
    obtain rfl : es = [] := List.length_eq_zero.mp hlen
    rfl
  | cons t0 ts' ih =>
    intro es cm cg cw hlen hchars htxt
    cases es with
    | nil => simp at hlen
    | cons e0 es' =>
      have hlen' : es'.length = ts'.length := by simpa using hlen
      have hpop := popLine_roundtrip maths g w t t0 cm cg cw
        (fun c hc => (hchars t0 (by simp) c hc).1)
        (fun c hc => (hchars t0 (by simp) c hc).2.1)
        (fun c hc => (hchars t0 (by simp) c hc).2.2)
        (fun j tx hj => htxt j tx (by
          rw [flatMatches]
          exact get?_append_left_of_some hj))
      have htxt' : ∀ j tx, (flatMatches tryMath ts').get? j = some tx →
          jsLookup maths t.mathMapping (cm + (jsMatch tryMath t0).length + j) = tx := by
        intro j tx hj
        have hflat : (flatMatches tryMath (t0 :: ts')).get? ((jsMatch tryMath t0).length + j) =
            some tx := by
          rw [flatMatches, get?_append_right_len]
          exact hj
        have h2 := htxt ((jsMatch tryMath t0).length + j) tx hflat
        rw [← h2]
        congr 1
        omega
      rw [List.map_cons, populateLines]
      simp only [hpop]
      rw [ih es' (cm + (jsMatch tryMath t0).length) cg cw hlen'
        (fun p hp c hc => hchars p (by simp [hp]) c hc) htxt']

/-- C1 counterexample: the reference pair has no special substrings at all,
so the template is built successfully, yet re-populating with the same
English string does not return the translated string: the English string has
two paragraphs, the template one line, and the populate walk throws on the
missing second template line (modelled as none). -/
theorem claim1_counterexample :
    createTemplate (S ("a\n\nb")) (S ("x")) (S ("es")) = .ok ⟨[S ("x")], [], [], []⟩ ∧
    populateTemplate ⟨[S ("x")], [], [], []⟩ (S ("a\n\nb")) (S ("es")) = none ∧
    decide (populateTemplate ⟨[S ("x")], [], [], []⟩ (S ("a\n\nb")) (S ("es")) =
      some (S ("x"))) = false :=
  ⟨by rfl, by rfl, by decide⟩

/-- C1, corrected statement.  The round trip holds under the conditions the
counterexample and the populate mechanics force: the language transform is
the identity (lang is not pt, since the populate side never applies the
transform), the English and translated strings have the same paragraph
count, the translated string contains no underscore, bang or open bracket
(so its only special substrings are math occurrences, and the placeholders
in the masked lines are exactly the inserted ones), and the per-paragraph
math matches of the translated string concatenate to its whole-string
matches (no paragraph-spanning or split-induced math).  Then populating the
freshly created template with the same English string returns the translated
string exactly. -/
theorem claim1_roundtrip_amended (E T lang : Str) (tmpl : Template)
    (hok : createTemplate E T lang = .ok tmpl)
    (hlang : lang ≠ S ("pt"))
    (hlen : (splitLB E).length = (splitLB T).length)
    (hchars : ∀ c ∈ T, c ≠ '_' ∧ c ≠ '!' ∧ c ≠ '[')
    (hflat : flatMatches tryMath (splitLB T) = jsMatch tryMath T) :
    populateTemplate tmpl E lang = some T := by
  rw [createTemplate] at hok
  cases hM : getMapping E T lang Kind.math with
  | error e => rw [hM] at hok; exact absurd hok (by simp)
  | ok mm =>
    rw [hM] at hok
    cases hG : getMapping E T lang Kind.graphie with
    | error e => rw [hG] at hok; exact absurd hok (by simp)
    | ok gm =>
      rw [hG] at hok
      cases hW : getMapping E T lang Kind.widget with
      | error e => rw [hW] at hok; exact absurd hok (by simp)
      | ok wm =>
        rw [hW] at hok
        injection hok with hok2
        subst hok2
        have hM' : getMappingGo (jsMatch tryMath E) lang Kind.math (jsMatch tryMath T) =
            .ok mm := hM
        have hmaths : mapTranslateMathJs (jsMatch tryMath E) = jsMatch tryMath E :=
          mapTranslateMathJs_id _
        have hcharsp : ∀ p ∈ splitLB T, ∀ c ∈ p, c ≠ '_' ∧ c ≠ '!' ∧ c ≠ '[' := by
          intro p hp c hc
          apply hchars
          rw [← joinSep_splitLB T]
          exact mem_joinSep hp hc
        have htxt : ∀ j tx, (flatMatches tryMath (splitLB T)).get? j = some tx →
            jsLookup (mapTranslateMathJs (jsMatch tryMath E))
              (⟨(splitLB T).map maskLine, mm, gm, wm⟩ : Template).mathMapping (0 + j) = tx := by
          intro j tx hj
          rw [hflat] at hj
          obtain ⟨i, hmm, hin⟩ := getMappingGo_ok_spec _ lang Kind.math hM' j tx hj
          have hptrw : ptRw lang tx = tx := by rw [ptRw, if_neg hlang]
          rw [hptrw] at hin
          rw [hmaths, Nat.zero_add]
          simp only [jsLookup, hmm, ← List.get?_eq_getElem?, hin]
          rfl
        have hlines := populateLines_roundtrip (mapTranslateMathJs (jsMatch tryMath E))
          (jsMatch tryGraphie E) (jsMatch tryWidget E)
          (⟨(splitLB T).map maskLine, mm, gm, wm⟩ : Template)
          (splitLB T) (splitLB E) 0 0 0 hlen hcharsp htxt
        rw [populateTemplate]
        simp only [hlines]
        rw [joinSep_splitLB]

/-- Witness for the amended C1: a two-paragraph pair whose only specials are
math occurrences, populated with its own English side. -/
theorem claim1_amended_witness :
    createTemplate (S ("hello $1$\n\nworld $2$")) (S ("hallo $1$\n\nwelt $2$")) (S ("it")) =
      .ok ⟨[S ("hallo __MATH__"), S ("welt __MATH__")], [0, 1], [], []⟩ ∧
    populateTemplate ⟨[S ("hallo __MATH__"), S ("welt __MATH__")], [0, 1], [], []⟩
      (S ("hello $1$\n\nworld $2$")) (S ("it")) = some (S ("hallo $1$\n\nwelt $2$")) :=
  ⟨by rfl,
    claim1_roundtrip_amended (S ("hello $1$\n\nworld $2$")) (S ("hallo $1$\n\nwelt $2$"))
      (S ("it")) ⟨[S ("hallo __MATH__"), S ("welt __MATH__")], [0, 1], [], []⟩
      (by rfl) (by decide) (by decide) (by decide) (by decide)⟩

end TA

